import Mathlib

/-!
Verification of the epubshrink streaming pipeline (src/main.rs).

The pipeline walks every entry of a source zip archive once, classifies it
by name suffix and flags, transforms or copies it into the output archive,
and runs a deferred second pass that subsets font entries against the
character set accumulated over the whole first pass.

Modelling conventions:
* entry names and byte payloads are `List Nat` (bytes in 0..255 for
  payloads, Unicode code points for decoded text);
* the external engines (caesium image compression, font subsetting) are
  opaque function parameters, as they are external collaborators;
* a Rust `expect`/`unwrap` abort is `Option.none`.
-/

set_option maxRecDepth 16384

namespace EpubShrink

/-- Code points of a Lean string literal, used to write names and texts. -/
def strN (s : String) : List Nat := s.data.map Char.toNat

/-- An archive entry: name, file/directory flag, raw byte payload. -/
structure Entry where
  name : List Nat
  is_file : Bool
  data : List Nat
  deriving DecidableEq, Repr

/-- The command-line configuration relevant to the pipeline (`Args`). -/
structure Args where
  jpeg_quality : Nat
  fonts : Bool
  images : Bool
  xhtml : Bool
  deriving DecidableEq, Repr

/-- The four transform categories of the classifier cascade in `main`. -/
inductive Category where
  | Image
  | Font
  | Markup
  | Passthrough
  deriving DecidableEq, Repr

/-- Suffix `.jpg` as code points. -/
def jpgSuffix : List Nat := strN ".jpg"

/-- Suffix `.otf` as code points. -/
def otfSuffix : List Nat := strN ".otf"

/-- Suffix `.xhtml` as code points. -/
def xhtmlSuffix : List Nat := strN ".xhtml"

/-- The classifier cascade of `main` (lines 69, 82, 87, 116 of main.rs):
first match wins among Image, Font, Markup, with Passthrough default.
`ends_with` is modelled by list suffix. -/
def classify (args : Args) (name : List Nat) (file : Bool) : Category :=
  if args.images = true ∧ file = true ∧ jpgSuffix <:+ name then .Image
  else if args.fonts = true ∧ file = true ∧ otfSuffix <:+ name then .Font
  else if (args.xhtml = true ∨ args.fonts = true) ∧ file = true ∧ xhtmlSuffix <:+ name then .Markup
  else .Passthrough

/-- Is a byte a UTF-8 continuation byte (`10xxxxxx`)? -/
def isCont (b : Nat) : Bool := decide (128 ≤ b ∧ b ≤ 191)

/-- UTF-8 decoding of a byte list into Unicode code points, as
`String::from_utf8`: rejects invalid sequences, overlong encodings,
surrogates and values above 0x10FFFF.  `none` models the decode error. -/
def utf8Decode : List Nat → Option (List Nat)
  | [] => some []
  | b :: rest =>
    if b ≤ 127 then
      (utf8Decode rest).map (fun t => b :: t)
    else if 194 ≤ b ∧ b ≤ 223 then
      match rest with
      | b1 :: rest' =>
        if isCont b1 then
          (utf8Decode rest').map (fun t => ((b - 192) * 64 + (b1 - 128)) :: t)
        else none
      | _ => none
    else if 224 ≤ b ∧ b ≤ 239 then
      match rest with
      | b1 :: b2 :: rest' =>
        let lo1 : Nat := if b = 224 then 160 else 128
        let hi1 : Nat := if b = 237 then 159 else 191
        if (lo1 ≤ b1 ∧ b1 ≤ hi1) ∧ isCont b2 = true then
          (utf8Decode rest').map
            (fun t => ((b - 224) * 4096 + (b1 - 128) * 64 + (b2 - 128)) :: t)
        else none
      | _ => none
    else if 240 ≤ b ∧ b ≤ 244 then
      match rest with
      | b1 :: b2 :: b3 :: rest' =>
        let lo1 : Nat := if b = 240 then 144 else 128
        let hi1 : Nat := if b = 244 then 143 else 191
        if (lo1 ≤ b1 ∧ b1 ≤ hi1) ∧ isCont b2 = true ∧ isCont b3 = true then
          (utf8Decode rest').map
            (fun t => ((b - 240) * 262144 + (b1 - 128) * 4096 + (b2 - 128) * 64 + (b3 - 128)) :: t)
        else none
      | _ => none
    else none

/-- UTF-8 encoding of one code point. -/
def utf8EncodeChar (c : Nat) : List Nat :=
  if c ≤ 127 then [c]
  else if c ≤ 2047 then [192 + c / 64, 128 + c % 64]
  else if c ≤ 65535 then [224 + c / 4096, 128 + (c / 64) % 64, 128 + c % 64]
  else [240 + c / 262144, 128 + (c / 4096) % 64, 128 + (c / 64) % 64, 128 + c % 64]

/-- UTF-8 encoding of a code point sequence (`String::as_bytes`). -/
def utf8Encode (l : List Nat) : List Nat := (l.map utf8EncodeChar).flatten

/-- UTF-16 code units of one code point (`char::encode_utf16`). -/
def utf16Char (c : Nat) : List Nat :=
  if c < 65536 then [c]
  else [55296 + (c - 65536) / 1024, 56320 + (c - 65536) % 1024]

/-- UTF-16 code units of a code point sequence (`str::encode_utf16`). -/
def utf16Units (l : List Nat) : List Nat := (l.map utf16Char).flatten

/-- `str::split_inclusive('\n')`: segments of the text, each keeping its
terminating newline; the last segment may lack one; empty text has none. -/
def splitIncl : List Nat → List (List Nat)
  | [] => []
  | c :: rest =>
    if c = 10 then [c] :: splitIncl rest
    else
      match splitIncl rest with
      | [] => [[c]]
      | s :: ss => (c :: s) :: ss

/-- The per-segment map of `str::lines`: strip one trailing `\n`, and if it
was present also one trailing `\r`. -/
def lineMap (seg : List Nat) : List Nat :=
  if seg.getLast? = some 10 then
    let s := seg.dropLast
    if s.getLast? = some 13 then s.dropLast else s
  else seg

/-- `str::lines`, as used by the markup trimmer. -/
def rustLines (s : List Nat) : List (List Nat) := (splitIncl s).map lineMap

/-- Unicode `White_Space` property, the set `char::is_whitespace` tests. -/
def isRustWs (c : Nat) : Bool :=
  decide ((9 ≤ c ∧ c ≤ 13) ∨ c = 32 ∨ c = 133 ∨ c = 160 ∨ c = 5760 ∨
    (8192 ≤ c ∧ c ≤ 8202) ∨ c = 8232 ∨ c = 8233 ∨ c = 8239 ∨ c = 8287 ∨ c = 12288)

/-- `str::trim`: drop leading and trailing whitespace. -/
def rustTrim (l : List Nat) : List Nat :=
  ((l.dropWhile isRustWs).reverse.dropWhile isRustWs).reverse

/-- The markup trimming transform (lines 105-109 of main.rs): every line of
the text trimmed and terminated by CRLF, including the last. -/
def trimLines (text : List Nat) : List Nat :=
  ((rustLines text).map (fun l => rustTrim l ++ [13, 10])).flatten

/-- State threaded through the first pass: output entries written so far,
indices of deferred font entries, accumulated used characters. -/
structure PassState where
  out : List (List Nat × List Nat)
  font_files : List Nat
  used_chars : Finset Nat
  deriving DecidableEq

/-- Insertion of a list of code units into the used-character set, one
`HashSet::insert` per unit. -/
def insertAll (l : List Nat) (s : Finset Nat) : Finset Nat :=
  l.foldl (fun s u => insert u s) s

/-- Processing of one archive entry in the first pass (loop body at lines
67-120 of main.rs).  `compress` is the caesium engine already configured
with the quality parameters. -/
def step (args : Args) (compress : List Nat → Option (List Nat))
    (i : Nat) (e : Entry) (st : PassState) : Option PassState :=
  match classify args e.name e.is_file with
  | .Image =>
    match compress e.data with
    | none => none
    | some r => some { st with out := st.out ++ [(e.name, r)] }
  | .Font => some { st with font_files := st.font_files ++ [i] }
  | .Markup =>
    match utf8Decode e.data with
    | none => none
    | some text =>
      let used := if args.fonts = true then insertAll (utf16Units text) st.used_chars
                  else st.used_chars
      let payload := if args.xhtml = true then utf8Encode (trimLines text) else e.data
      some { st with used_chars := used, out := st.out ++ [(e.name, payload)] }
  | .Passthrough => some { st with out := st.out ++ [(e.name, e.data)] }

/-- The first pass over a suffix of the archive starting at index `i`. -/
def firstPassAux (args : Args) (compress : List Nat → Option (List Nat)) :
    List Entry → Nat → PassState → Option PassState
  | [], _, st => some st
  | e :: rest, i, st =>
    match step args compress i e st with
    | none => none
    | some st' => firstPassAux args compress rest (i + 1) st'

/-- The initial pass state: the used-character set is seeded with the code
units 0..254 (`for i in 0..255`, line 62 of main.rs). -/
def initState : PassState :=
  { out := [], font_files := [], used_chars := insertAll (List.range 255) ∅ }

/-- The whole first pass (lines 59-120 of main.rs). -/
def firstPass (args : Args) (compress : List Nat → Option (List Nat))
    (archive : List Entry) : Option PassState :=
  firstPassAux args compress archive 0 initState

/-- The second pass over the deferred font indices (lines 125-140 of
main.rs): each index is re-read from the archive and the payload handed to
the subsetting engine together with the used-character set. -/
def pass2Aux (subset : List Nat → Finset Nat → Option (List Nat))
    (archive : List Entry) (used : Finset Nat) :
    List Nat → List (List Nat × List Nat) → Option (List (List Nat × List Nat))
  | [], out => some out
  | i :: rest, out =>
    match archive.get? i with
    | none => none
    | some e =>
      match subset e.data used with
      | none => none
      | some r => pass2Aux subset archive used rest (out ++ [(e.name, r)])

/-- The whole pipeline: first pass, then — only when font minimization is
enabled (line 123 of main.rs) — the deferred font pass. -/
def runPipeline (args : Args) (compress : List Nat → Option (List Nat))
    (subset : List Nat → Finset Nat → Option (List Nat))
    (archive : List Entry) : Option (List (List Nat × List Nat)) :=
  match firstPass args compress archive with
  | none => none
  | some st =>
    if args.fonts = true then pass2Aux subset archive st.used_chars st.font_files st.out
    else some st.out

/-- The names a list of deferred indices denotes in an archive. -/
def fontNames (archive : List Entry) (fs : List Nat) : List (List Nat) :=
  fs.filterMap (fun k => (archive.get? k).map Entry.name)

/-- Identity image engine, used to instantiate concrete runs. -/
def idCompress : List Nat → Option (List Nat) := fun d => some d

/-- Identity font engine, used to instantiate concrete runs. -/
def idSubset : List Nat → Finset Nat → Option (List Nat) := fun d _ => some d

/-- Number of occurrences of a name in a list of names. -/
def countOcc (x : List Nat) (l : List (List Nat)) : Nat :=
  l.countP (fun y => decide (y = x))

/-! ### Helper lemmas -/

theorem not_jpg_of_xhtml {n : List Nat} (h : xhtmlSuffix <:+ n) : ¬ jpgSuffix <:+ n := by
  intro hj
  rcases List.suffix_or_suffix_of_suffix h hj with h' | h'
  · have := h'.length_le
    revert this
    decide
  · revert h'
    decide

theorem not_otf_of_xhtml {n : List Nat} (h : xhtmlSuffix <:+ n) : ¬ otfSuffix <:+ n := by
  intro hj
  rcases List.suffix_or_suffix_of_suffix h hj with h' | h'
  · have := h'.length_le
    revert this
    decide
  · revert h'
    decide

theorem classify_markup {args : Args} {name : List Nat} (hx : xhtmlSuffix <:+ name)
    (hor : args.xhtml = true ∨ args.fonts = true) :
    classify args name true = .Markup := by
  unfold classify
  rw [if_neg, if_neg, if_pos]
  · exact ⟨hor, rfl, hx⟩
  · rintro ⟨-, -, h⟩
    exact not_otf_of_xhtml hx h
  · rintro ⟨-, -, h⟩
    exact not_jpg_of_xhtml hx h

theorem fonts_of_classify_font {args : Args} {n : List Nat} {f : Bool}
    (h : classify args n f = .Font) : args.fonts = true := by
  unfold classify at h
  split_ifs at h with h1 h2 h3
  exact h2.1

theorem mem_insertAll {l : List Nat} {s : Finset Nat} {x : Nat} :
    x ∈ insertAll l s ↔ x ∈ l ∨ x ∈ s := by
  induction l generalizing s with
  | nil => simp [insertAll]
  | cons a l ih =>
    show x ∈ insertAll l (insert a s) ↔ _
    rw [ih]
    simp only [List.mem_cons, Finset.mem_insert]
    tauto

theorem step_out_extend {args : Args} {c : List Nat → Option (List Nat)} {i : Nat}
    {e : Entry} {st st' : PassState} (h : step args c i e st = some st') :
    ∃ t, st'.out = st.out ++ t := by
  unfold step at h
  cases hcl : classify args e.name e.is_file <;> rw [hcl] at h
  · cases hc : c e.data <;> rw [hc] at h
    · exact absurd h (by simp)
    · injection h with h
      subst h
      exact ⟨_, rfl⟩
  · injection h with h
    subst h
    exact ⟨[], by simp⟩
  · cases hd : utf8Decode e.data <;> rw [hd] at h
    · exact absurd h (by simp)
    · injection h with h
      subst h
      exact ⟨_, rfl⟩
  · injection h with h
    subst h
    exact ⟨_, rfl⟩

theorem step_used_mono {args : Args} {c : List Nat → Option (List Nat)} {i : Nat}
    {e : Entry} {st st' : PassState} (h : step args c i e st = some st') :
    st.used_chars ⊆ st'.used_chars := by
  unfold step at h
  cases hcl : classify args e.name e.is_file <;> rw [hcl] at h
  · cases hc : c e.data <;> rw [hc] at h
    · exact absurd h (by simp)
    · injection h with h
      subst h
      exact Finset.Subset.refl _
  · injection h with h
    subst h
    exact Finset.Subset.refl _
  · cases hd : utf8Decode e.data <;> rw [hd] at h
    · exact absurd h (by simp)
    · injection h with h
      subst h
      show st.used_chars ⊆ if args.fonts = true then _ else _
      split
      · intro x hx
        rw [mem_insertAll]
        exact Or.inr hx
      · exact Finset.Subset.refl _
  · injection h with h
    subst h
    exact Finset.Subset.refl _

theorem firstPassAux_out_extend {args : Args} {c : List Nat → Option (List Nat)} :
    ∀ {l : List Entry} {i : Nat} {st st' : PassState},
      firstPassAux args c l i st = some st' → ∃ t, st'.out = st.out ++ t := by
  intro l
  induction l with
  | nil =>
    intro i st st' h
    injection h with h
    subst h
    exact ⟨[], by simp⟩
  | cons e rest ih =>
    intro i st st' h
    unfold firstPassAux at h
    cases hs : step args c i e st <;> rw [hs] at h
    · exact absurd h (by simp)
    · obtain ⟨t1, h1⟩ := step_out_extend hs
      obtain ⟨t2, h2⟩ := ih h
      exact ⟨t1 ++ t2, by rw [h2, h1, List.append_assoc]⟩

theorem firstPassAux_used_mono {args : Args} {c : List Nat → Option (List Nat)} :
    ∀ {l : List Entry} {i : Nat} {st st' : PassState},
      firstPassAux args c l i st = some st' → st.used_chars ⊆ st'.used_chars := by
  intro l
  induction l with
  | nil =>
    intro i st st' h
    injection h with h
    subst h
    exact Finset.Subset.refl _
  | cons e rest ih =>
    intro i st st' h
    unfold firstPassAux at h
    cases hs : step args c i e st <;> rw [hs] at h
    · exact absurd h (by simp)
    · exact Finset.Subset.trans (step_used_mono hs) (ih h)

theorem firstPassAux_pres {args : Args} {c : List Nat → Option (List Nat)}
    {Q : PassState → Prop}
    (hstep : ∀ j e' st st', step args c j e' st = some st' → Q st → Q st') :
    ∀ {l : List Entry} {i : Nat} {st st' : PassState},
      firstPassAux args c l i st = some st' → Q st → Q st' := by
  intro l
  induction l with
  | nil =>
    intro i st st' h hq
    injection h with h
    subst h
    exact hq
  | cons e rest ih =>
    intro i st st' h hq
    unfold firstPassAux at h
    cases hs : step args c i e st <;> rw [hs] at h
    · exact absurd h (by simp)
    · exact ih h (hstep _ _ _ _ hs hq)

theorem firstPassAux_hit {args : Args} {c : List Nat → Option (List Nat)}
    {e : Entry} {Q : PassState → Prop}
    (hstep : ∀ j e' st st', step args c j e' st = some st' → Q st → Q st')
    (hhit : ∀ j st st', step args c j e st = some st' → Q st') :
    ∀ {l : List Entry} {i : Nat} {st st' : PassState},
      e ∈ l → firstPassAux args c l i st = some st' → Q st' := by
  intro l
  induction l with
  | nil =>
    intro i st st' hm
    exact absurd hm (List.not_mem_nil e)
  | cons a rest ih =>
    intro i st st' hm h
    unfold firstPassAux at h
    cases hs : step args c i a st <;> rw [hs] at h
    · exact absurd h (by simp)
    · rename_i st1
      rcases List.mem_cons.mp hm with he | he
      · subst he
        exact firstPassAux_pres hstep h (hhit i st st1 hs)
      · exact ih he h

theorem pass2Aux_out_extend {s : List Nat → Finset Nat → Option (List Nat)}
    {A : List Entry} {u : Finset Nat} :
    ∀ {fs : List Nat} {out out' : List (List Nat × List Nat)},
      pass2Aux s A u fs out = some out' → ∃ t, out' = out ++ t := by
  intro fs
  induction fs with
  | nil =>
    intro out out' h
    injection h with h
    subst h
    exact ⟨[], by simp⟩
  | cons k rest ih =>
    intro out out' h
    unfold pass2Aux at h
    split at h
    · exact absurd h (by simp)
    · split at h
      · exact absurd h (by simp)
      · obtain ⟨t, ht⟩ := ih h
        exact ⟨_, by rw [ht, List.append_assoc]⟩

theorem runPipeline_split {args : Args} {c : List Nat → Option (List Nat)}
    {s : List Nat → Finset Nat → Option (List Nat)}
    {archive : List Entry} {out : List (List Nat × List Nat)}
    (h : runPipeline args c s archive = some out) :
    ∃ st, firstPass args c archive = some st ∧
      ((args.fonts = true ∧ pass2Aux s archive st.used_chars st.font_files st.out = some out)
        ∨ (args.fonts = false ∧ out = st.out)) := by
  unfold runPipeline at h
  split at h
  · exact absurd h (by simp)
  · rename_i st hfp
    refine ⟨st, hfp, ?_⟩
    split at h
    · rename_i hf
      exact Or.inl ⟨hf, h⟩
    · rename_i hf
      injection h with h
      simp only [Bool.not_eq_true] at hf
      exact Or.inr ⟨hf, h.symm⟩

theorem runPipeline_mem_out {args : Args} {c : List Nat → Option (List Nat)}
    {s : List Nat → Finset Nat → Option (List Nat)}
    {archive : List Entry} {out : List (List Nat × List Nat)}
    (h : runPipeline args c s archive = some out)
    {st : PassState} (hfp : firstPass args c archive = some st)
    {p : List Nat × List Nat} (hp : p ∈ st.out) : p ∈ out := by
  obtain ⟨st2, hfp2, hrest⟩ := runPipeline_split h
  rw [hfp] at hfp2
  injection hfp2 with hst
  subst hst
  rcases hrest with ⟨-, h2⟩ | ⟨-, h2⟩
  · obtain ⟨t, ht⟩ := pass2Aux_out_extend h2
    rw [ht]
    exact List.mem_append_left _ hp
  · rw [h2]
    exact hp

theorem countOcc_append (x : List Nat) (l1 l2 : List (List Nat)) :
    countOcc x (l1 ++ l2) = countOcc x l1 + countOcc x l2 :=
  List.countP_append _ _ _

theorem countOcc_eq_one {x : List Nat} :
    ∀ {l : List (List Nat)}, l.Nodup → x ∈ l → countOcc x l = 1 := by
  intro l
  induction l with
  | nil => simp
  | cons a l ih =>
    intro hnd hm
    rw [List.nodup_cons] at hnd
    rcases List.mem_cons.mp hm with he | hm'
    · subst he
      have hz : countOcc x l = 0 := by
        rw [countOcc, List.countP_eq_zero]
        intro b hb
        simp only [decide_eq_true_eq]
        intro hbx
        exact hnd.1 (hbx ▸ hb)
      simp [countOcc, List.countP_cons] at hz ⊢
      exact hz
    · have hax : ¬ (a = x) := by
        intro hax
        exact hnd.1 (hax ▸ hm')
      have := ih hnd.2 hm'
      simp [countOcc, List.countP_cons, hax] at this ⊢
      exact this

theorem countOcc_nil (x : List Nat) : countOcc x [] = 0 := rfl

theorem countOcc_cons (x a : List Nat) (l : List (List Nat)) :
    countOcc x (a :: l) = countOcc x l + (if a = x then 1 else 0) := by
  simp [countOcc, List.countP_cons]

theorem fontNames_append (A : List Entry) (fs1 fs2 : List Nat) :
    fontNames A (fs1 ++ fs2) = fontNames A fs1 ++ fontNames A fs2 :=
  List.filterMap_append _ _ _

theorem step_count {args : Args} {c : List Nat → Option (List Nat)} {i : Nat}
    {e : Entry} {st st' : PassState} (h : step args c i e st = some st')
    {A : List Entry} (hA : A.get? i = some e) (n : List Nat) :
    countOcc n (st'.out.map Prod.fst) + countOcc n (fontNames A st'.font_files)
      = countOcc n (st.out.map Prod.fst) + countOcc n (fontNames A st.font_files)
        + (if e.name = n then 1 else 0) := by
  unfold step at h
  cases hcl : classify args e.name e.is_file <;> rw [hcl] at h
  · cases hc : c e.data <;> rw [hc] at h
    · exact absurd h (by simp)
    · injection h with h
      subst h
      simp only [List.map_append, List.map_cons, List.map_nil, countOcc_append,
        countOcc_cons, countOcc_nil]
      omega
  · injection h with h
    subst h
    simp only [fontNames_append]
    have hsing : fontNames A [i] = [e.name] := by
      have hA2 : A[i]? = some e := by rw [← List.get?_eq_getElem?]; exact hA
      simp [fontNames, hA2]
    rw [hsing]
    simp only [countOcc_append, countOcc_cons, countOcc_nil]
    omega
  · cases hd : utf8Decode e.data <;> rw [hd] at h
    · exact absurd h (by simp)
    · injection h with h
      subst h
      simp only [List.map_append, List.map_cons, List.map_nil, countOcc_append,
        countOcc_cons, countOcc_nil]
      omega
  · injection h with h
    subst h
    simp only [List.map_append, List.map_cons, List.map_nil, countOcc_append,
      countOcc_cons, countOcc_nil]
    omega

theorem firstPassAux_count {args : Args} {c : List Nat → Option (List Nat)}
    {A : List Entry} :
    ∀ {l : List Entry} {i : Nat} {st st' : PassState},
      (∀ j, j < l.length → A.get? (i + j) = l.get? j) →
      firstPassAux args c l i st = some st' →
      ∀ n, countOcc n (st'.out.map Prod.fst) + countOcc n (fontNames A st'.font_files)
        = countOcc n (st.out.map Prod.fst) + countOcc n (fontNames A st.font_files)
          + countOcc n (l.map Entry.name) := by
  intro l
  induction l with
  | nil =>
    intro i st st' _ h n
    injection h with h
    subst h
    simp [countOcc_nil]
  | cons e rest ih =>
    intro i st st' hA h n
    unfold firstPassAux at h
    cases hs : step args c i e st <;> rw [hs] at h
    · exact absurd h (by simp)
    · rename_i st1
      have hAe : A.get? i = some e := by
        have h0 := hA 0 (by simp)
        simpa using h0
      have h1 := step_count hs hAe n
      have hA' : ∀ j, j < rest.length → A.get? (i + 1 + j) = rest.get? j := by
        intro j hj
        have hx := hA (j + 1) (by simp [Nat.succ_lt_succ hj])
        rw [show i + (j + 1) = i + 1 + j from by omega] at hx
        simpa using hx
      have h2 := ih hA' h n
      rw [List.map_cons, countOcc_cons]
      omega

theorem step_fonts_false {args : Args} {c : List Nat → Option (List Nat)} {i : Nat}
    {e : Entry} {st st' : PassState} (hf : args.fonts = false)
    (h : step args c i e st = some st') : st'.font_files = st.font_files := by
  unfold step at h
  cases hcl : classify args e.name e.is_file <;> rw [hcl] at h
  · cases hc : c e.data <;> rw [hc] at h
    · exact absurd h (by simp)
    · injection h with h
      subst h
      rfl
  · exact absurd (fonts_of_classify_font hcl) (by simp [hf])
  · cases hd : utf8Decode e.data <;> rw [hd] at h
    · exact absurd h (by simp)
    · injection h with h
      subst h
      rfl
  · injection h with h
    subst h
    rfl

theorem firstPassAux_fonts_false {args : Args} {c : List Nat → Option (List Nat)}
    (hf : args.fonts = false) :
    ∀ {l : List Entry} {i : Nat} {st st' : PassState},
      firstPassAux args c l i st = some st' → st'.font_files = st.font_files := by
  intro l
  induction l with
  | nil =>
    intro i st st' h
    injection h with h
    subst h
    rfl
  | cons e rest ih =>
    intro i st st' h
    unfold firstPassAux at h
    cases hs : step args c i e st <;> rw [hs] at h
    · exact absurd h (by simp)
    · rw [ih h, step_fonts_false hf hs]

theorem pass2Aux_count {s : List Nat → Finset Nat → Option (List Nat)}
    {A : List Entry} {u : Finset Nat} :
    ∀ {fs : List Nat} {out out' : List (List Nat × List Nat)},
      pass2Aux s A u fs out = some out' →
      ∀ n, countOcc n (out'.map Prod.fst)
        = countOcc n (out.map Prod.fst) + countOcc n (fontNames A fs) := by
  intro fs
  induction fs with
  | nil =>
    intro out out' h n
    injection h with h
    subst h
    simp [fontNames, countOcc_nil]
  | cons k rest ih =>
    intro out out' h n
    unfold pass2Aux at h
    split at h
    · exact absurd h (by simp)
    · rename_i e hg
      split at h
      · exact absurd h (by simp)
      · rename_i r hsub
        have h2 := ih h n
        have hk : fontNames A (k :: rest) = e.name :: fontNames A rest := by
          have hg2 : A[k]? = some e := by rw [← List.get?_eq_getElem?]; exact hg
          simp [fontNames, hg2]
        rw [hk, countOcc_cons, h2]
        simp only [List.map_append, List.map_cons, List.map_nil, countOcc_append,
          countOcc_cons, countOcc_nil]
        omega

theorem passthrough_mem {args : Args} {c : List Nat → Option (List Nat)}
    {s : List Nat → Finset Nat → Option (List Nat)}
    {archive : List Entry} {out : List (List Nat × List Nat)} {e : Entry}
    (hcl : classify args e.name e.is_file = .Passthrough)
    (he : e ∈ archive) (hrun : runPipeline args c s archive = some out) :
    (e.name, e.data) ∈ out := by
  obtain ⟨st, hfp, -⟩ := runPipeline_split hrun
  have hmem : (e.name, e.data) ∈ st.out := by
    refine firstPassAux_hit (Q := fun st => (e.name, e.data) ∈ st.out) ?_ ?_ he hfp
    · intro j e' st0 st1 hs hq
      obtain ⟨t, ht⟩ := step_out_extend hs
      rw [ht]
      exact List.mem_append_left _ hq
    · intro j st0 st1 hs
      unfold step at hs
      rw [hcl] at hs
      injection hs with hs
      subst hs
      simp
  exact runPipeline_mem_out hrun hfp hmem

theorem markup_mem {args : Args} {c : List Nat → Option (List Nat)}
    {s : List Nat → Finset Nat → Option (List Nat)}
    {archive : List Entry} {out : List (List Nat × List Nat)} {e : Entry}
    {text : List Nat}
    (hcl : classify args e.name e.is_file = .Markup)
    (hd : utf8Decode e.data = some text)
    (he : e ∈ archive) (hrun : runPipeline args c s archive = some out) :
    (e.name, if args.xhtml = true then utf8Encode (trimLines text) else e.data) ∈ out := by
  obtain ⟨st, hfp, -⟩ := runPipeline_split hrun
  have hmem : (e.name, if args.xhtml = true then utf8Encode (trimLines text) else e.data)
      ∈ st.out := by
    refine firstPassAux_hit
      (Q := fun st => (e.name,
        if args.xhtml = true then utf8Encode (trimLines text) else e.data) ∈ st.out) ?_ ?_ he hfp
    · intro j e' st0 st1 hs hq
      obtain ⟨t, ht⟩ := step_out_extend hs
      rw [ht]
      exact List.mem_append_left _ hq
    · intro j st0 st1 hs
      unfold step at hs
      rw [hcl, hd] at hs
      injection hs with hs
      subst hs
      simp
  exact runPipeline_mem_out hrun hfp hmem

theorem markup_used {args : Args} {c : List Nat → Option (List Nat)}
    {archive : List Entry} {st : PassState} {e : Entry} {text : List Nat} {u : Nat}
    (hf : args.fonts = true)
    (hcl : classify args e.name e.is_file = .Markup)
    (hd : utf8Decode e.data = some text)
    (he : e ∈ archive)
    (hfp : firstPass args c archive = some st)
    (hu : u ∈ utf16Units text) :
    u ∈ st.used_chars := by
  refine firstPassAux_hit (Q := fun st => u ∈ st.used_chars) ?_ ?_ he hfp
  · intro j e' st0 st1 hs hq
    exact step_used_mono hs hq
  · intro j st0 st1 hs
    unfold step at hs
    rw [hcl, hd] at hs
    injection hs with hs
    subst hs
    simp only [hf, if_pos]
    show u ∈ insertAll (utf16Units text) st0.used_chars
    rw [mem_insertAll]
    exact Or.inl hu

/-! ### Claim theorems -/

/-- Claim C3: classification is a total pure function of the entry name,
its file flag and the configuration, returning exactly one of Image, Font,
Markup, Passthrough with first-match-wins priority: Image (images enabled,
file, name ends `.jpg`), else Font (fonts enabled, file, ends `.otf`),
else Markup ((xhtml or fonts enabled), file, ends `.xhtml`), else
Passthrough — every entry, directories included, gets exactly one
category. -/
theorem C3_classifier_rules (args : Args) (name : List Nat) (file : Bool) :
    (classify args name file = .Image ↔
      (args.images = true ∧ file = true ∧ jpgSuffix <:+ name)) ∧
    (classify args name file = .Font ↔
      (¬(args.images = true ∧ file = true ∧ jpgSuffix <:+ name) ∧
        args.fonts = true ∧ file = true ∧ otfSuffix <:+ name)) ∧
    (classify args name file = .Markup ↔
      (¬(args.images = true ∧ file = true ∧ jpgSuffix <:+ name) ∧
        ¬(args.fonts = true ∧ file = true ∧ otfSuffix <:+ name) ∧
        (args.xhtml = true ∨ args.fonts = true) ∧ file = true ∧ xhtmlSuffix <:+ name)) ∧
    (classify args name file = .Passthrough ↔
      (¬(args.images = true ∧ file = true ∧ jpgSuffix <:+ name) ∧
        ¬(args.fonts = true ∧ file = true ∧ otfSuffix <:+ name) ∧
        ¬((args.xhtml = true ∨ args.fonts = true) ∧ file = true ∧ xhtmlSuffix <:+ name))) := by
  unfold classify
  split_ifs with h1 h2 h3 <;>
    refine ⟨?_, ?_, ?_, ?_⟩ <;> simp_all

/-- Claim C6: an entry classified Passthrough is copied into the output
byte-identically under its own name, and processing it touches nothing
else: its step appends exactly that one pair and leaves the deferred font
list and the used-character set unchanged. -/
theorem C6_passthrough_frame (args : Args) (c : List Nat → Option (List Nat))
    (s : List Nat → Finset Nat → Option (List Nat))
    (archive : List Entry) (out : List (List Nat × List Nat)) (e : Entry)
    (hcl : classify args e.name e.is_file = .Passthrough)
    (he : e ∈ archive) (hrun : runPipeline args c s archive = some out) :
    (e.name, e.data) ∈ out ∧
    ∀ i st, step args c i e st = some
      { out := st.out ++ [(e.name, e.data)], font_files := st.font_files,
        used_chars := st.used_chars } := by
  refine ⟨passthrough_mem hcl he hrun, ?_⟩
  intro i st
  unfold step
  rw [hcl]

/-- Claim C6 witness: a concrete passthrough entry with no flags enabled is
copied verbatim into the output. -/
theorem C6_witness :
    (strN "mimetype", ([1, 2] : List Nat)) ∈ [((strN "mimetype" : List Nat), ([1, 2] : List Nat))] ∧
    ∀ i st, step ⟨50, false, false, false⟩ idCompress i ⟨strN "mimetype", true, [1, 2]⟩ st = some
      { out := st.out ++ [(strN "mimetype", [1, 2])], font_files := st.font_files,
        used_chars := st.used_chars } :=
  C6_passthrough_frame ⟨50, false, false, false⟩ idCompress idSubset
    [⟨strN "mimetype", true, [1, 2]⟩] [(strN "mimetype", [1, 2])]
    ⟨strN "mimetype", true, [1, 2]⟩ (by decide) (by decide) (by decide)

/-- Claim C9: an archive containing a Markup-classified entry whose bytes
are not valid UTF-8 makes the run abort with a fatal error: the pipeline
produces no output archive at all. -/
theorem C9_invalid_utf8_fatal (args : Args) (c : List Nat → Option (List Nat))
    (s : List Nat → Finset Nat → Option (List Nat))
    (archive : List Entry) (e : Entry)
    (he : e ∈ archive)
    (hcl : classify args e.name e.is_file = .Markup)
    (hd : utf8Decode e.data = none) :
    runPipeline args c s archive = none := by
  have hnone : ∀ (l : List Entry) (i : Nat) (st : PassState), e ∈ l →
      firstPassAux args c l i st = none := by
    intro l
    induction l with
    | nil =>
      intro i st hm
      exact absurd hm (List.not_mem_nil e)
    | cons a rest ih =>
      intro i st hm
      unfold firstPassAux
      cases hs : step args c i a st
      · rfl
      · rcases List.mem_cons.mp hm with hea | hm'
        · subst hea
          unfold step at hs
          rw [hcl, hd] at hs
          exact absurd hs (by simp)
        · exact ih _ _ hm'
  unfold runPipeline firstPass
  rw [hnone archive 0 initState he]

/-- Claim C9 witness: a single `.xhtml` entry whose payload is the invalid
UTF-8 byte 0xFF aborts the whole run. -/
theorem C9_witness :
    utf8Decode [255] = none ∧
    runPipeline ⟨50, false, false, true⟩ idCompress idSubset
      [⟨strN "a.xhtml", true, [255]⟩] = none :=
  ⟨by decide,
    C9_invalid_utf8_fatal ⟨50, false, false, true⟩ idCompress idSubset
      [⟨strN "a.xhtml", true, [255]⟩] ⟨strN "a.xhtml", true, [255]⟩
      (by decide) (by decide) (by decide)⟩

/-- Claim C10: suffix classification is exact and case-sensitive: a file
entry whose name does not end with the exact lowercase suffixes `.jpg`,
`.otf`, `.xhtml` — e.g. it ends with `.JPG`, `.Otf` or `.XHTML` instead —
is classified Passthrough and copied verbatim even when every transform
flag is enabled. -/
theorem C10_case_sensitive_suffix (args : Args) (c : List Nat → Option (List Nat))
    (s : List Nat → Finset Nat → Option (List Nat))
    (archive : List Entry) (out : List (List Nat × List Nat)) (e : Entry)
    (_hfile : e.is_file = true)
    (hj : ¬ jpgSuffix <:+ e.name) (ho : ¬ otfSuffix <:+ e.name)
    (hx : ¬ xhtmlSuffix <:+ e.name)
    (he : e ∈ archive) (hrun : runPipeline args c s archive = some out) :
    classify args e.name e.is_file = .Passthrough ∧ (e.name, e.data) ∈ out := by
  have hcl : classify args e.name e.is_file = .Passthrough := by
    unfold classify
    rw [if_neg, if_neg, if_neg]
    · rintro ⟨-, -, hsuf⟩
      exact hx hsuf
    · rintro ⟨-, -, hsuf⟩
      exact ho hsuf
    · rintro ⟨-, -, hsuf⟩
      exact hj hsuf
  exact ⟨hcl, passthrough_mem hcl he hrun⟩

/-- Claim C10 witness: with all flags enabled, a file named `a.JPG` is
passed through byte-identically. -/
theorem C10_witness :
    classify ⟨50, true, true, true⟩ (strN "a.JPG") true = .Passthrough ∧
    (strN "a.JPG", ([9, 8] : List Nat)) ∈ [((strN "a.JPG" : List Nat), ([9, 8] : List Nat))] :=
  C10_case_sensitive_suffix ⟨50, true, true, true⟩ idCompress idSubset
    [⟨strN "a.JPG", true, [9, 8]⟩] [(strN "a.JPG", [9, 8])] ⟨strN "a.JPG", true, [9, 8]⟩
    (by decide) (by decide) (by decide) (by decide) (by decide) (by decide)

/-- Claim C2: with font minimization enabled, the used-character set the
second pass hands to the subsetting engine for every deferred font — the
set accumulated over the whole first pass — contains every UTF-16 code
unit of every `.xhtml` file entry of the archive, wherever that entry is
located relative to the font. -/
theorem C2_fonts_see_all_chars (args : Args) (c : List Nat → Option (List Nat))
    (archive : List Entry) (st : PassState) (e : Entry) (text : List Nat) (u : Nat)
    (hf : args.fonts = true)
    (hfp : firstPass args c archive = some st)
    (he : e ∈ archive) (hfile : e.is_file = true)
    (hsuf : xhtmlSuffix <:+ e.name)
    (hd : utf8Decode e.data = some text)
    (hu : u ∈ utf16Units text) :
    u ∈ st.used_chars := by
  have hcl : classify args e.name e.is_file = .Markup := by
    rw [hfile]
    exact classify_markup hsuf (Or.inr hf)
  exact markup_used hf hcl hd he hfp hu

/-- Claim C2 witness: a font-enabled run over one `.xhtml` entry holding
the character U+0100 (outside the Latin-1 seed) puts code unit 256 into
the accumulated set. -/
theorem C2_witness :
    (256 : Nat) ∈ ((firstPass ⟨50, true, false, false⟩ idCompress
      [⟨strN "a.xhtml", true, [196, 128]⟩]).getD initState).used_chars :=
  C2_fonts_see_all_chars ⟨50, true, false, false⟩ idCompress
    [⟨strN "a.xhtml", true, [196, 128]⟩]
    ((firstPass ⟨50, true, false, false⟩ idCompress
      [⟨strN "a.xhtml", true, [196, 128]⟩]).getD initState)
    ⟨strN "a.xhtml", true, [196, 128]⟩ [256] 256
    (by decide) (by decide) (by decide) (by decide) (by decide) (by decide) (by decide)

/-- Claim C4 counterexample: the claim's example output is wrong on the
code.  `str::trim` strips only leading and trailing whitespace, so the
line `<b> </b>  ` trims to `<b> </b>` — the interior space survives — and
the run writes `<p>Hi</p>\r\n<b> </b>\r\n`, not the claimed
`<p>Hi</p>\r\n<b></b>\r\n`. -/
theorem C4_counterexample :
    runPipeline ⟨50, false, false, true⟩ idCompress idSubset
        [⟨strN "a.xhtml", true, utf8Encode (strN "  <p>Hi</p>  \n<b> </b>  ")⟩]
      = some [(strN "a.xhtml", utf8Encode (strN "<p>Hi</p>\r\n<b> </b>\r\n"))] ∧
    utf8Encode (strN "<p>Hi</p>\r\n<b> </b>\r\n")
      ≠ utf8Encode (strN "<p>Hi</p>\r\n<b></b>\r\n") :=
  ⟨by decide, by decide⟩

/-- Claim C4 (amended): for every markup entry whose bytes decode as
UTF-8, when xhtml-trimming is enabled the bytes written to the output
under the entry's original name are each line of the decoded text with
leading and trailing whitespace removed, each line followed by CR LF,
including the last line; on the cited input `  <p>Hi</p>  \n<b> </b>  `
this yields `<p>Hi</p>\r\n<b> </b>\r\n` (the interior space of `<b> </b>`
is kept, since only leading and trailing whitespace is removed). -/
theorem C4_markup_trim (args : Args) (c : List Nat → Option (List Nat))
    (s : List Nat → Finset Nat → Option (List Nat))
    (archive : List Entry) (out : List (List Nat × List Nat)) (e : Entry) (text : List Nat)
    (hx : args.xhtml = true)
    (hcl : classify args e.name e.is_file = .Markup)
    (hd : utf8Decode e.data = some text)
    (he : e ∈ archive)
    (hrun : runPipeline args c s archive = some out) :
    (e.name, utf8Encode (((rustLines text).map (fun l => rustTrim l ++ [13, 10])).flatten))
      ∈ out := by
  have hmem := markup_mem hcl hd he hrun
  rw [hx] at hmem
  simpa [trimLines] using hmem

/-- Claim C4 witness: the run on the cited scenario input contains the
trimmed CRLF-terminated output under the original name. -/
theorem C4_witness :
    (strN "a.xhtml",
      utf8Encode (((rustLines (strN "  <p>Hi</p>  \n<b> </b>  ")).map
        (fun l => rustTrim l ++ [13, 10])).flatten))
      ∈ [((strN "a.xhtml" : List Nat),
          utf8Encode (strN "<p>Hi</p>\r\n<b> </b>\r\n"))] :=
  C4_markup_trim ⟨50, false, false, true⟩ idCompress idSubset
    [⟨strN "a.xhtml", true, utf8Encode (strN "  <p>Hi</p>  \n<b> </b>  ")⟩]
    [(strN "a.xhtml", utf8Encode (strN "<p>Hi</p>\r\n<b> </b>\r\n"))]
    ⟨strN "a.xhtml", true, utf8Encode (strN "  <p>Hi</p>  \n<b> </b>  ")⟩
    (strN "  <p>Hi</p>  \n<b> </b>  ")
    (by decide) (by decide) (by decide) (by decide) (by decide)

/-- Claim C5 counterexample: the claim omits the font-minimization
condition.  With xhtml-trimming enabled but font minimization disabled,
an `.xhtml` entry holding U+0100 is scanned (classified Markup), yet
after the first pass the used-character set still lacks its code unit
256: characters are only accumulated when fonts are enabled. -/
theorem C5_counterexample :
    classify ⟨50, false, false, true⟩ (strN "a.xhtml") true = .Markup ∧
    utf8Decode [196, 128] = some [256] ∧
    utf16Units [256] = [256] ∧
    (firstPass ⟨50, false, false, true⟩ idCompress
        [⟨strN "a.xhtml", true, [196, 128]⟩]).map
      (fun st => decide ((256 : Nat) ∈ st.used_chars)) = some false :=
  ⟨by decide, by decide, by decide, by decide⟩

/-- Claim C5 (amended): after the first pass the used-character set is a
superset of 0..254; when font minimization is enabled it is a superset of
the UTF-16 code units of every scanned `.xhtml` file entry, independent
of entry order; and it only ever gains elements during the first pass. -/
theorem C5_used_chars_superset (args : Args) (c : List Nat → Option (List Nat))
    (archive : List Entry) (st : PassState)
    (hfp : firstPass args c archive = some st) :
    (∀ x ∈ Finset.range 255, x ∈ st.used_chars) ∧
    (∀ e ∈ archive, ∀ text : List Nat, args.fonts = true → e.is_file = true →
      xhtmlSuffix <:+ e.name → utf8Decode e.data = some text →
      ∀ u ∈ utf16Units text, u ∈ st.used_chars) ∧
    (∀ (l : List Entry) (i : Nat) (st0 st1 : PassState),
      firstPassAux args c l i st0 = some st1 → st0.used_chars ⊆ st1.used_chars) := by
  refine ⟨?_, ?_, ?_⟩
  · intro x hx
    have hinit : x ∈ initState.used_chars := by
      show x ∈ insertAll (List.range 255) ∅
      rw [mem_insertAll]
      exact Or.inl (List.mem_range.mpr (Finset.mem_range.mp hx))
    exact firstPassAux_used_mono hfp hinit
  · intro e he text hf hfile hsuf hd u hu
    have hcl : classify args e.name e.is_file = .Markup := by
      rw [hfile]
      exact classify_markup hsuf (Or.inr hf)
    exact markup_used hf hcl hd he hfp hu
  · intro l i st0 st1 h
    exact firstPassAux_used_mono h

/-- Claim C5 witness: a concrete font-enabled first pass over one `.xhtml`
entry satisfies all three amended conjuncts. -/
theorem C5_witness :
    (∀ x ∈ Finset.range 255,
      x ∈ ((firstPass ⟨50, true, false, false⟩ idCompress
        [⟨strN "b.xhtml", true, [196, 129]⟩]).getD initState).used_chars) ∧
    (∀ e ∈ [(⟨strN "b.xhtml", true, [196, 129]⟩ : Entry)], ∀ text : List Nat,
      (⟨(50 : Nat), true, false, false⟩ : Args).fonts = true → e.is_file = true →
      xhtmlSuffix <:+ e.name → utf8Decode e.data = some text →
      ∀ u ∈ utf16Units text,
        u ∈ ((firstPass ⟨50, true, false, false⟩ idCompress
          [⟨strN "b.xhtml", true, [196, 129]⟩]).getD initState).used_chars) ∧
    (∀ (l : List Entry) (i : Nat) (st0 st1 : PassState),
      firstPassAux ⟨50, true, false, false⟩ idCompress l i st0 = some st1 →
        st0.used_chars ⊆ st1.used_chars) :=
  C5_used_chars_superset ⟨50, true, false, false⟩ idCompress
    [⟨strN "b.xhtml", true, [196, 129]⟩]
    ((firstPass ⟨50, true, false, false⟩ idCompress
      [⟨strN "b.xhtml", true, [196, 129]⟩]).getD initState)
    (by decide)

/-- Claim C7: when font minimization is enabled and xhtml-trimming is
disabled, an `.xhtml` file entry is still scanned — its UTF-16 code units
all enter the used-character set — but the bytes written to the output
under its original name are exactly the original source bytes. -/
theorem C7_scan_without_trim (args : Args) (c : List Nat → Option (List Nat))
    (s : List Nat → Finset Nat → Option (List Nat))
    (archive : List Entry) (st : PassState) (out : List (List Nat × List Nat))
    (e : Entry) (text : List Nat)
    (hf : args.fonts = true) (hx : args.xhtml = false)
    (hfile : e.is_file = true) (hsuf : xhtmlSuffix <:+ e.name)
    (hd : utf8Decode e.data = some text)
    (he : e ∈ archive)
    (hfp : firstPass args c archive = some st)
    (hrun : runPipeline args c s archive = some out) :
    (e.name, e.data) ∈ out ∧ ∀ u ∈ utf16Units text, u ∈ st.used_chars := by
  have hcl : classify args e.name e.is_file = .Markup := by
    rw [hfile]
    exact classify_markup hsuf (Or.inr hf)
  constructor
  · have hmem := markup_mem hcl hd he hrun
    rw [hx] at hmem
    simpa using hmem
  · intro u hu
    exact markup_used hf hcl hd he hfp hu

/-- Claim C7 witness: fonts on, xhtml off, one `.xhtml` entry holding
U+0100: the original bytes are copied and code unit 256 is collected. -/
theorem C7_witness :
    ((strN "a.xhtml", ([196, 128] : List Nat))
        ∈ [((strN "a.xhtml" : List Nat), ([196, 128] : List Nat))]) ∧
    ∀ u ∈ utf16Units [256],
      u ∈ ((firstPass ⟨50, true, false, false⟩ idCompress
        [⟨strN "a.xhtml", true, [196, 128]⟩]).getD initState).used_chars :=
  C7_scan_without_trim ⟨50, true, false, false⟩ idCompress idSubset
    [⟨strN "a.xhtml", true, [196, 128]⟩]
    ((firstPass ⟨50, true, false, false⟩ idCompress
      [⟨strN "a.xhtml", true, [196, 128]⟩]).getD initState)
    [(strN "a.xhtml", [196, 128])]
    ⟨strN "a.xhtml", true, [196, 128]⟩ [256]
    (by decide) (by decide) (by decide) (by decide) (by decide) (by decide)
    (by decide) (by decide)

/-- Claim C8: markup trimming is idempotent: on a document in which no
line has leading or trailing whitespace and every line (including the
last) is terminated by CRLF, the trimming transform is the identity. -/
theorem C8_trim_idempotent (d : List Nat)
    (h1 : ∀ l ∈ rustLines d, rustTrim l = l)
    (h2 : d = ((rustLines d).map (fun l => l ++ [13, 10])).flatten) :
    trimLines d = d := by
  have hmap : (rustLines d).map (fun l => rustTrim l ++ [13, 10])
      = (rustLines d).map (fun l => l ++ [13, 10]) :=
    List.map_congr_left (fun l hl => by rw [h1 l hl])
  rw [trimLines, hmap, ← h2]

/-- Claim C8 witness: the already-trimmed document `a\r\nb\r\n` is a fixed
point of the trimming transform. -/
theorem C8_witness :
    (∀ l ∈ rustLines (strN "a\r\nb\r\n"), rustTrim l = l) ∧
    trimLines (strN "a\r\nb\r\n") = strN "a\r\nb\r\n" :=
  ⟨by decide, C8_trim_idempotent (strN "a\r\nb\r\n") (by decide) (by decide)⟩

/-- Claim C1 counterexample: a zip archive may physically contain two file
entries with the same name; the pipeline copies both and completes, so the
name appears twice — not exactly once — in the output. -/
theorem C1_counterexample :
    runPipeline ⟨50, false, false, false⟩ idCompress idSubset
        [⟨strN "a", true, [7]⟩, ⟨strN "a", true, [7]⟩]
      = some [(strN "a", [7]), (strN "a", [7])] ∧
    (⟨strN "a", true, [7]⟩ : Entry) ∈ [(⟨strN "a", true, [7]⟩ : Entry), ⟨strN "a", true, [7]⟩] ∧
    countOcc (strN "a") ([((strN "a" : List Nat), ([7] : List Nat)), (strN "a", [7])].map Prod.fst)
      = 2 :=
  ⟨by decide, by decide, by decide⟩

/-- Claim C1 (amended): for every input archive with pairwise-distinct
entry names on which the run completes without a fatal error, every entry
name that is a file in the source archive appears exactly once, under the
same name, in the output archive — whether the entry was
image-compressed, trimmed, font-subsetted in the second pass, or passed
through. -/
theorem C1_name_preservation (args : Args) (c : List Nat → Option (List Nat))
    (s : List Nat → Finset Nat → Option (List Nat))
    (archive : List Entry) (out : List (List Nat × List Nat)) (e : Entry)
    (hrun : runPipeline args c s archive = some out)
    (hnd : (archive.map Entry.name).Nodup)
    (he : e ∈ archive) (_hfile : e.is_file = true) :
    countOcc e.name (out.map Prod.fst) = 1 := by
  obtain ⟨st, hfp, hrest⟩ := runPipeline_split hrun
  unfold firstPass at hfp
  have hA : ∀ j, j < archive.length → archive.get? (0 + j) = archive.get? j := by
    intro j hj
    rw [Nat.zero_add]
  have hcount := firstPassAux_count hA hfp e.name
  simp only [initState, List.map_nil, countOcc_nil] at hcount
  have hzero : countOcc e.name (fontNames archive ([] : List Nat)) = 0 := rfl
  rw [hzero] at hcount
  have hone : countOcc e.name (archive.map Entry.name) = 1 :=
    countOcc_eq_one hnd (List.mem_map_of_mem _ he)
  rcases hrest with ⟨hf, hp2⟩ | ⟨hf, hout⟩
  · have hp2c := pass2Aux_count hp2 e.name
    omega
  · have hffempty : st.font_files = ([] : List Nat) :=
      firstPassAux_fonts_false hf hfp
    rw [hout]
    rw [hffempty, hzero] at hcount
    omega

/-- Claim C1 witness: a three-entry archive — an image, a font and a
markup file — run with all transforms enabled and identity engines keeps
each of the three names exactly once in the output. -/
theorem C1_witness :
    runPipeline ⟨50, true, true, true⟩ idCompress idSubset
        [⟨strN "img.jpg", true, [1]⟩, ⟨strN "f.otf", true, [2]⟩, ⟨strN "p.xhtml", true, [65]⟩]
      = some [(strN "img.jpg", [1]), (strN "p.xhtml", strN "A\r\n"), (strN "f.otf", [2])] ∧
    countOcc (strN "f.otf")
      ([((strN "img.jpg" : List Nat), ([1] : List Nat)), (strN "p.xhtml", strN "A\r\n"),
        (strN "f.otf", [2])].map Prod.fst) = 1 :=
  ⟨by decide,
    C1_name_preservation ⟨50, true, true, true⟩ idCompress idSubset
      [⟨strN "img.jpg", true, [1]⟩, ⟨strN "f.otf", true, [2]⟩, ⟨strN "p.xhtml", true, [65]⟩]
      [(strN "img.jpg", [1]), (strN "p.xhtml", strN "A\r\n"), (strN "f.otf", [2])]
      ⟨strN "f.otf", true, [2]⟩
      (by decide) (by decide) (by decide) (by decide)⟩

end EpubShrink
